import Mathlib

/-!
Shallow embedding of `spectralAnalysis.py` (directional ocean-wave spectrum
estimation: MLM / IMLM / MEM estimators and the orchestrating pipeline
`displacementToWelch`), together with theorems settling the frozen claims
about the program.

Conventions of the embedding:
* numpy arrays indexed by frequency bin become functions `κ → ℝ` / `κ → ℂ`
  (the pipeline instantiates `κ := ℕ`, out-of-range indices giving the
  `List.getD` default), direction-indexed data becomes `Fin T → _`;
* vectorized numpy arithmetic becomes pointwise arithmetic on functions
  (`Pi` instances), matching numpy broadcasting on aligned shapes;
* external library routines that are not part of the repository
  (`np.linalg.pinv`, `scipy.optimize.least_squares`, `scipy.signal.csd`)
  are taken as oracle parameters: the repository code is embedded around
  them, never simplified;
* Python exceptions become `Except` with the Python propagation semantics
  (first raise aborts the enclosing computation).
-/

set_option maxHeartbeats 1000000
set_option maxRecDepth 8000

open Complex ComplexConjugate
open scoped Classical

/-- Trapezoidal quadrature of real samples `ys` against abscissae `xs`,
as computed by `np.trapz(ys, x=xs)`. -/
noncomputable def trapzR : List ℝ → List ℝ → ℝ
  | x1 :: x2 :: xs, y1 :: y2 :: ys =>
      (x2 - x1) * (y1 + y2) / 2 + trapzR (x2 :: xs) (y2 :: ys)
  | _, _ => 0
  termination_by xs _ => xs.length

/-- Trapezoidal quadrature of complex samples `ys` against real abscissae
`xs`, as computed by `np.trapz(ys, x=xs)` on a complex array. -/
noncomputable def trapzC : List ℝ → List ℂ → ℂ
  | x1 :: x2 :: xs, y1 :: y2 :: ys =>
      ((x2 - x1 : ℝ) : ℂ) * (y1 + y2) / 2 + trapzC (x2 :: xs) (y2 :: ys)
  | _, _ => 0
  termination_by xs _ => xs.length

/-- Deep-water dispersion relation `waveNum` from the source:
`wL = (2 * np.pi * freq)**2 / 9.86`. -/
noncomputable def waveNum (freq : ℝ) : ℝ := (2 * Real.pi * freq) ^ 2 / 9.86

/-- The Python truthiness of `k.any()`: some element of the wavenumber array
is nonzero. -/
def anyNZ {κ : Type*} (k : κ → ℝ) : Prop := ∃ j, k j ≠ 0

/-- The branch guard `k.any() * d > 15` shared by `mlmEstimate` and
`spectrumToCrossSpectrum`: numpy evaluates `k.any()` to a scalar boolean,
multiplies it (as `1` / `0`) by the depth, and compares once globally. -/
noncomputable def deepCond {κ : Type*} (k : κ → ℝ) (d : ℝ) : Prop :=
  (if anyNZ k then (1 : ℝ) else 0) * d > 15

/-- Transfer gain `hz` from the source: `k**0` in the deep branch, otherwise
`np.sinh(k*(d+.5))/np.sinh(k*d)`, branching globally on `deepCond`. -/
noncomputable def hzF {κ : Type*} (k : κ → ℝ) (d : ℝ) : κ → ℝ :=
  if deepCond k d then
    fun j => (k j) ^ (0 : ℕ)
  else
    fun j => Real.sinh (k j * (d + 0.5)) / Real.sinh (k j * d)

/-- Transfer gain `hxy` from the source: `1j * k**0` in the deep branch,
otherwise `1j * np.cosh(k*(d+.5)) / np.sinh(k*d)`, branching globally on
`deepCond`. -/
noncomputable def hxyF {κ : Type*} (k : κ → ℝ) (d : ℝ) : κ → ℂ :=
  if deepCond k d then
    fun j => Complex.I * (((k j) ^ (0 : ℕ) : ℝ) : ℂ)
  else
    fun j => Complex.I * ((Real.cosh (k j * (d + 0.5)) : ℝ) : ℂ) /
      ((Real.sinh (k j * d) : ℝ) : ℂ)

/-- The triple `hmatrix = [hz, hxy, -hxy]` used by both `mlmEstimate` and
`spectrumToCrossSpectrum`. -/
noncomputable def hmatrix {κ : Type*} (k : κ → ℝ) (d : ℝ) : Fin 3 → κ → ℂ :=
  ![fun j => ((hzF k d j : ℝ) : ℂ), hxyF k d, fun j => -(hxyF k d j)]

/-- Direction-steering vector `alpha = lambda f : [1, np.cos(f), -np.sin(f)]`. -/
noncomputable def alphaV (f : ℝ) : Fin 3 → ℂ :=
  ![1, ((Real.cos f : ℝ) : ℂ), -((Real.sin f : ℝ) : ℂ)]

/-- The accumulated `mlmsum` of `mlmEstimate`: for each grid cell, the sum
over `m, n ∈ {0,1,2}` of
`np.real((hmatrix[m]*alpha(f)[m]) * Ds[m][n] * np.conj(alpha(f)[n]*hmatrix[n]))`. -/
noncomputable def mlmsum {ι κ : Type*} (Ds : Fin 3 → Fin 3 → κ → ℂ)
    (thetaG : ι → κ → ℝ) (k : κ → ℝ) (d : ℝ) : ι → κ → ℝ :=
  fun i j => ∑ m, ∑ n,
    ((hmatrix k d m j * alphaV (thetaG i j) m) * Ds m n j *
      conj (alphaV (thetaG i j) n * hmatrix k d n j)).re

/-- `mlmEstimate(Ds, thetaG, k, d)` from the source: the elementwise
reciprocal `1/np.array(mlm)` of the accumulated bilinear form. -/
noncomputable def mlmEstimate {ι κ : Type*} (Ds : Fin 3 → Fin 3 → κ → ℂ)
    (thetaG : ι → κ → ℝ) (k : κ → ℝ) (d : ℝ) : ι → κ → ℝ :=
  fun i j => 1 / mlmsum Ds thetaG k d i j

/-- A single 3x3 complex matrix (one frequency bin of the cross spectrum). -/
def M33 : Type := Fin 3 → Fin 3 → ℂ

/-- `spectrumToCrossSpectrum(S, k, theta, d, freq)` from the source: the
forward synthesis `G[m][n] = np.trapz(hmatrix[m] * np.conjugate(hmatrix[n]) * S,
x=theta, axis=0)`.  The `freq` argument is accepted and, as in the source,
never used. -/
noncomputable def spectrumToCrossSpectrum {T : ℕ} {κ : Type*}
    (S : Fin T → κ → ℂ) (k : κ → ℝ) (theta : Fin T → ℝ) (d : ℝ)
    (freq : κ → ℝ) : Fin 3 → Fin 3 → κ → ℂ :=
  fun m n j =>
    trapzC (List.ofFn theta)
      (List.ofFn fun i => hmatrix k d m j * conj (hmatrix k d n j) * S i j)

/-- `zxyMatrixInverse(G)` from the source: per frequency bin, the
Moore-Penrose pseudo-inverse `np.linalg.pinv` of the 3x3 matrix at that bin.
`np.linalg.pinv` is numpy-library code, not part of the repository, so it is
taken as the oracle parameter `pinv`. -/
def zxyMatrixInverse {κ : Type*} (pinv : M33 → M33)
    (G : Fin 3 → Fin 3 → κ → ℂ) : Fin 3 → Fin 3 → κ → ℂ :=
  fun m n j => pinv (fun a b => G a b j) m n

/-- One pass of the `for i in range(20)` loop body of `imlmEstimate`, acting
on the Python state `(E, prev, curr)`:
`crossEstimate = spectrumToCrossSpectrum(E*curr, k, theta, d, freq)`;
`E = crossEstimate[0][0]`; `lamb = initialEstimate - prev`;
`eFactor = np.abs(lamb)**(betaHP+1.0) / (lamb*gammaHP)`;
`curr = prev + eFactor`; `prev = curr`. -/
noncomputable def imlmStep {T : ℕ} {κ : Type*}
    (initialEstimate : Fin T → κ → ℝ) (k : κ → ℝ) (theta : Fin T → ℝ)
    (d : ℝ) (freq : κ → ℝ) (betaHP gammaHP : ℝ) :
    (κ → ℂ) × (Fin T → κ → ℝ) × (Fin T → κ → ℝ) →
      (κ → ℂ) × (Fin T → κ → ℝ) × (Fin T → κ → ℝ) :=
  fun st =>
    let E := st.1
    let prev := st.2.1
    let curr := st.2.2
    let crossEstimate :=
      spectrumToCrossSpectrum (fun i j => E j * ((curr i j : ℝ) : ℂ)) k theta d freq
    let E2 := crossEstimate 0 0
    let lamb := initialEstimate - prev
    let eFactor : Fin T → κ → ℝ :=
      fun i j => |lamb i j| ^ (betaHP + 1.0) / (lamb i j * gammaHP)
    (E2, prev + eFactor, prev + eFactor)

/-- `imlmEstimate(Gmn, freq, theta, d, k, betaHP, gammaHP)` from the source.
The passed wavenumber parameter `k0` is immediately overwritten by
`k = waveNum(freq)`; the initial estimate is
`mlmEstimate(zxyMatrixInverse(Gmn), thetaG, k, d)`, `E` starts as
`Gmn[0][0]`, `prev` starts as the scalar `0` (broadcast to the grid), and
the loop body `imlmStep` runs exactly 20 times with no convergence check;
the 20th iterate `curr` is returned. -/
noncomputable def imlmEstimate {T : ℕ} {κ : Type*} (pinv : M33 → M33)
    (Gmn : Fin 3 → Fin 3 → κ → ℂ) (freq : κ → ℝ) (theta : Fin T → ℝ)
    (d : ℝ) (k0 : κ → ℝ) (betaHP gammaHP : ℝ) : Fin T → κ → ℝ :=
  let k : κ → ℝ := fun j => waveNum (freq j)
  let thetaG : Fin T → κ → ℝ := fun i _ => theta i
  let initialEstimate := mlmEstimate (zxyMatrixInverse pinv Gmn) thetaG k d
  let E : κ → ℂ := Gmn 0 0
  ((imlmStep initialEstimate k theta d freq betaHP gammaHP)^[20]
    (E, 0, initialEstimate)).2.2

/-- State after `n` iterations of the IMLM refinement as the claim describes
it: starting from `(E0, 0, initialMLM)`, each iteration (1) synthesizes a
cross-spectrum from the current estimate via `spectrumToCrossSpectrum`,
(2) sets `E` to its heave `(0,0)` entry, (3) computes
`lambda = initialMLM - prev`, (4) computes
`eFactor = |lambda|^(beta+1) / (lambda*gamma)`, and (5) sets the new
estimate to `prev + eFactor`, never re-invoking `mlmEstimate`. -/
noncomputable def imlmClaimState {T : ℕ} {κ : Type*}
    (initialMLM : Fin T → κ → ℝ) (k : κ → ℝ) (theta : Fin T → ℝ) (d : ℝ)
    (freq : κ → ℝ) (betaHP gammaHP : ℝ) (E0 : κ → ℂ) :
    ℕ → (κ → ℂ) × (Fin T → κ → ℝ) × (Fin T → κ → ℝ)
  | 0 => (E0, 0, initialMLM)
  | n + 1 =>
    let st := imlmClaimState initialMLM k theta d freq betaHP gammaHP E0 n
    let crossEstimate :=
      spectrumToCrossSpectrum (fun i j => st.1 j * ((st.2.2 i j : ℝ) : ℂ))
        k theta d freq
    let lamb := initialMLM - st.2.1
    let eFactor : Fin T → κ → ℝ :=
      fun i j => |lamb i j| ^ (betaHP + 1.0) / (lamb i j * gammaHP)
    (crossEstimate 0 0, st.2.1 + eFactor, st.2.1 + eFactor)

/-- `firstOrderFourier(zx, xx, yy, zz, zy)` from the source:
`a1 = zx/np.sqrt((xx+yy)*zz)`, `b1 = zy/np.sqrt((xx+yy)*zz)` (per bin). -/
noncomputable def firstOrderFourier (zx xx yy zz zy : ℝ) : ℝ × ℝ :=
  (1 * zx / Real.sqrt ((xx + yy) * zz), 1 * zy / Real.sqrt ((xx + yy) * zz))

/-- `secondOrderFourier(xx, yy, zz, xy)` from the source:
`a2 = (xx-yy)/(xx+yy)`, `b2 = (2*xy)/(xx+yy)` (per bin; `zz` is accepted and
unused, as in the source). -/
noncomputable def secondOrderFourier (xx yy zz xy : ℝ) : ℝ × ℝ :=
  ((xx - yy) / (xx + yy), (2 * xy) / (xx + yy))

/-- Hermitian positive-definiteness of one 3x3 cross-spectrum bin. -/
def HPD3 (G : Fin 3 → Fin 3 → ℂ) : Prop :=
  (∀ m n, G n m = conj (G m n)) ∧
    ∀ v : Fin 3 → ℂ, v ≠ 0 → 0 < (∑ m, ∑ n, conj (v m) * G m n * v n).re

/-- Hermitian positive-semidefiniteness of one 3x3 cross-spectrum bin. -/
def HPSD3 (G : Fin 3 → Fin 3 → ℂ) : Prop :=
  (∀ m n, G n m = conj (G m n)) ∧
    ∀ v : Fin 3 → ℂ, 0 ≤ (∑ m, ∑ n, conj (v m) * G m n * v n).re

/-- The exponential directional model of `bettermem`:
`np.exp(-x[0]-x[1]*np.cos(t)-x[2]*np.sin(t)-x[3]*np.cos(2*t)-x[4]*np.sin(2*t))`. -/
noncomputable def memDensity (x : Fin 5 → ℝ) (t : ℝ) : ℝ :=
  Real.exp (-(x 0) - x 1 * Real.cos t - x 2 * Real.sin t -
    x 3 * Real.cos (2 * t) - x 4 * Real.sin (2 * t))

/-- The residual function `fun(x, theta, y)` of `bettermem`: the model's
direction-integrated moments `coef = [1, a1, b1, a2, b2]` (trapezoidal
integration over the direction grid) minus the target `y`, componentwise,
through `np.sqrt((coef - y)**2)`. -/
noncomputable def memResidual (x : Fin 5 → ℝ) (theta : List ℝ)
    (y : Fin 5 → ℝ) : Fin 5 → ℝ :=
  let a1 := trapzR theta (theta.map fun t => memDensity x t * Real.cos t)
  let b1 := trapzR theta (theta.map fun t => memDensity x t * Real.sin t)
  let a2 := trapzR theta (theta.map fun t => memDensity x t * Real.cos (2 * t))
  let b2 := trapzR theta (theta.map fun t => memDensity x t * Real.sin (2 * t))
  let coef : Fin 5 → ℝ := ![1, a1, b1, a2, b2]
  fun i => Real.sqrt ((coef i - y i) ^ 2)

/-- One row of the moments table `rf` built by `displacementToWelch`. -/
structure MomentsRow where
  freq : ℝ
  Czz : ℝ
  Cxx : ℝ
  Cyy : ℝ
  Cxy : ℝ
  Qzx : ℝ
  Qzy : ℝ
  a0 : ℝ
  a1 : ℝ
  b1 : ℝ
  a2 : ℝ
  b2 : ℝ
  k : ℝ
deriving Inhabited

/-- The target vector `y` that `bettermem` hands to the least-squares solver
for frequency bin `i`, transcribed from the source:
`y[0] = ff.a0[i]; y[1] = ff.a1[i]; y[2] = ff.b2[i]; y[3] = ff.a2[i];
y[4] = ff.b2[i]`. -/
def memTarget (r : MomentsRow) : Fin 5 → ℝ :=
  ![r.a0, r.a1, r.b2, r.a2, r.b2]

/-- Signature of `scipy.optimize.least_squares(fun, x0, method="lm",
args=(theta, y))`: scipy-library code, not part of the repository, taken as
an oracle that either returns a parameter vector or raises (`Except.error`). -/
def LsqSolver : Type :=
  ((Fin 5 → ℝ) → List ℝ → (Fin 5 → ℝ) → Fin 5 → ℝ) → (Fin 5 → ℝ) →
    List ℝ → (Fin 5 → ℝ) → Except Unit (Fin 5 → ℝ)

/-- The inner `for i in range(len(freqG))` loop of `bettermem` over one
direction `t`: each cell invokes the solver on `memResidual` with initial
guess `[1, 1, 1, 1, 1]` and target `memTarget (ff i)`, appending the model
density at `t`; a raised exception propagates out, aborting the loop. -/
noncomputable def memCells (lsq : LsqSolver) (ff : ℕ → MomentsRow)
    (thetaG : List ℝ) (t : ℝ) : List ℕ → Except Unit (List ℝ)
  | [] => .ok []
  | i :: is =>
    match lsq memResidual (fun _ => 1) thetaG (memTarget (ff i)) with
    | .error e => .error e
    | .ok x =>
      match memCells lsq ff thetaG t is with
      | .error e => .error e
      | .ok rest => .ok (memDensity x t :: rest)

/-- The outer `for theta in thetaG` loop of `bettermem`, collecting one row
of cell values per direction; a raised exception propagates out. -/
noncomputable def memRows (lsq : LsqSolver) (ff : ℕ → MomentsRow)
    (thetaG : List ℝ) (idxs : List ℕ) : List ℝ → Except Unit (List (List ℝ))
  | [] => .ok []
  | t :: rest =>
    match memCells lsq ff thetaG t idxs with
    | .error e => .error e
    | .ok row =>
      match memRows lsq ff thetaG idxs rest with
      | .error e => .error e
      | .ok rows => .ok (row :: rows)

/-- `bettermem(ff, cross, thetaG, freqG)` from the source: per-direction,
per-frequency least-squares fits (the `cross` argument is accepted and, in
the live code, unused). -/
noncomputable def bettermem (lsq : LsqSolver) (ff : ℕ → MomentsRow)
    (cross : Fin 3 → Fin 3 → ℕ → ℂ) (thetaG : List ℝ) (nF : ℕ) :
    Except Unit (List (List ℝ)) :=
  memRows lsq ff thetaG (List.range nF) thetaG

/-- The filtered table `rf = rf[rf.freq > 0]` of `displacementToWelch`,
acting on the (already zero-bin-trimmed) list of `(frequency, bin matrix)`
pairs produced by `seriesToCrossSpectrum` and `signal.welch` (scipy-library
code, so the pairs themselves are the pipeline input here). -/
noncomputable def dtwRf (bins : List (ℝ × M33)) : List (ℝ × M33) :=
  bins.filter fun b => decide (0 < b.1)

/-- The frequency axis `freq = rf.freq.to_numpy()` of `displacementToWelch`. -/
noncomputable def dtwFreq (bins : List (ℝ × M33)) : ℕ → ℝ :=
  fun j => ((dtwRf bins).map Prod.fst).getD j 0

/-- The wavenumber column `rf['k'] = waveNum(rf.freq)` of
`displacementToWelch`. -/
noncomputable def dtwK (bins : List (ℝ × M33)) : ℕ → ℝ :=
  fun j => waveNum (dtwFreq bins j)

/-- The unfiltered cross spectrum `Ds` of `displacementToWelch` as a
per-bin family. -/
noncomputable def dtwDs (bins : List (ℝ × M33)) : Fin 3 → Fin 3 → ℕ → ℂ :=
  fun m n j => ((bins.map Prod.snd).getD j (fun _ _ => 0)) m n

/-- The direction grid `theta = np.radians(np.arange(0, 360+1, 5))` of
`displacementToWelch`: 73 directions, every 5 degrees from 0 to 360. -/
noncomputable def dtwTheta : Fin 73 → ℝ :=
  fun i => (5 * (i : ℕ) : ℝ) * (Real.pi / 180)

/-- One row of the moments table of `displacementToWelch`, built from the
original Welch cross-spectrum bin: co/quadrature columns from the matrix
entries, `a0 = Czz`, `(a1, b1)` and `(a2, b2)` from the Fourier extractors,
`k` from the dispersion relation. -/
noncomputable def mkMomentsRow (b : ℝ × M33) : MomentsRow :=
  let Czz := (b.2 0 0).re
  let Cxx := (b.2 1 1).re
  let Cyy := (b.2 2 2).re
  let Cxy := (b.2 1 2).re
  let Qzx := (b.2 0 1).im
  let Qzy := (b.2 0 2).im
  { freq := b.1, Czz := Czz, Cxx := Cxx, Cyy := Cyy, Cxy := Cxy,
    Qzx := Qzx, Qzy := Qzy,
    a0 := Czz,
    a1 := (firstOrderFourier Qzx Cxx Cyy Czz Qzy).1,
    b1 := (firstOrderFourier Qzx Cxx Cyy Czz Qzy).2,
    a2 := (secondOrderFourier Cxx Cyy Czz Cxy).1,
    b2 := (secondOrderFourier Cxx Cyy Czz Cxy).2,
    k := waveNum b.1 }

/-- The moments table returned by `displacementToWelch`. -/
noncomputable def dtwRows (bins : List (ℝ × M33)) : List MomentsRow :=
  (dtwRf bins).map mkMomentsRow

/-- How a run of `displacementToWelch` can fail: `unboundLocalEstimate` is
Python's `UnboundLocalError` on reading the never-assigned local `estimate`
at the re-synthesis line; `fitError` is an exception escaping
`optimize.least_squares` inside `bettermem`; `configErrorUnknownMethod` is
the fail-fast dispatch error the specification posits, which the embedded
code never produces. -/
inductive DtwErr
  | unboundLocalEstimate
  | fitError
  | configErrorUnknownMethod
deriving DecidableEq

/-- The estimator dispatch of `displacementToWelch`: the `if/elif` chain on
`method` (with depth `d = 60`, `beta = 2.5`, `gamma = 10`, and the unused
`mlm` intermediate of the `imlm` branch as in the source).  There is no
`else` branch in the source, so an unknown method assigns nothing
(`Option.none` models the unassigned Python local `estimate`); an exception
escaping `bettermem` propagates. -/
noncomputable def dtwDispatch (pinv : M33 → M33) (lsq : LsqSolver)
    (bins : List (ℝ × M33)) (method : String) :
    Except DtwErr (Option (Fin 73 → ℕ → ℝ)) :=
  if method = "mlm" then
    .ok (some (mlmEstimate (zxyMatrixInverse pinv (dtwDs bins))
      (fun i _ => dtwTheta i) (dtwK bins) 60))
  else if method = "imlm" then
    let betaHP : ℝ := 2.5
    let gammaHP : ℝ := 10
    let mlm := mlmEstimate (zxyMatrixInverse pinv (dtwDs bins))
      (fun i _ => dtwTheta i) (dtwK bins) 60
    .ok (some (imlmEstimate pinv (dtwDs bins) (dtwFreq bins) dtwTheta 60
      (dtwK bins) betaHP gammaHP))
  else if method = "mem" then
    match bettermem lsq (fun j => (dtwRows bins).getD j default) (dtwDs bins)
        (List.ofFn dtwTheta) (dtwRf bins).length with
    | .error _ => .error .fitError
    | .ok g => .ok (some fun i j => (g.getD (i : ℕ) []).getD j 0)
  else
    .ok none

/-- `displacementToWelch` from the source, embedded from the filtered table
onward (series construction and Welch estimation are scipy/pandas-library
code, so the per-bin cross-spectrum `bins` is the input): builds the moments
table, dispatches on `method` through `dtwDispatch`, then evaluates the
re-synthesis
`newst = spectrumToCrossSpectrum(np.array(rf.Czz) * estimate, k, theta, d, freq)`
and the refined columns, which are dead (their assignments into the table
are commented out in the source), and returns the untouched table together
with the estimate.  An unknown method leaves `estimate` unassigned, so the
re-synthesis line raises `UnboundLocalError`. -/
noncomputable def displacementToWelch (pinv : M33 → M33) (lsq : LsqSolver)
    (bins : List (ℝ × M33)) (method : String) :
    Except DtwErr (List MomentsRow × (Fin 73 → ℕ → ℝ)) :=
  match dtwDispatch pinv lsq bins method with
  | .error e => .error e
  | .ok none => .error .unboundLocalEstimate
  | .ok (some estimate) =>
    let newst := spectrumToCrossSpectrum
      (fun i j => ((((dtwRows bins).getD j default).Czz * estimate i j : ℝ) : ℂ))
      (dtwK bins) dtwTheta 60 (dtwFreq bins)
    let Cxx := fun j => (newst 1 1 j).re
    let Cyy := fun j => (newst 2 2 j).re
    let Czz := fun j => (newst 0 0 j).re
    let Cxy := fun j => (newst 1 2 j).re
    let Qzx := fun j => (newst 0 1 j).im
    let Qzy := fun j => (newst 0 2 j).im
    .ok (dtwRows bins, estimate)

theorem imlm_iterate_eq_claimState {T : ℕ} {κ : Type*}
    (init : Fin T → κ → ℝ) (k : κ → ℝ) (theta : Fin T → ℝ) (d : ℝ)
    (freq : κ → ℝ) (betaHP gammaHP : ℝ) (E0 : κ → ℂ) (n : ℕ) :
    (imlmStep init k theta d freq betaHP gammaHP)^[n] (E0, 0, init) =
      imlmClaimState init k theta d freq betaHP gammaHP E0 n := by
  induction n with
  | zero => rfl
  | succ n ih =>
    rw [Function.iterate_succ_apply', ih]
    rfl

/-- C3: `imlmEstimate` runs exactly 20 iterations with no convergence check;
each iteration synthesizes `spectrumToCrossSpectrum(E*curr, ...)`, sets `E`
to its heave `(0,0)` entry, computes `lambda = initialMLM - prev` and
`eFactor = |lambda|^(beta+1)/(lambda*gamma)`, and sets the new estimate to
`prev + eFactor`, never re-invoking `mlmEstimate` inside the loop; the
returned grid is the 20th iterate of exactly this recurrence
(`imlmClaimState`). -/
theorem imlm_is_twenty_iterates_of_claimed_recurrence {T : ℕ} {κ : Type*}
    (pinv : M33 → M33) (Gmn : Fin 3 → Fin 3 → κ → ℂ) (freq : κ → ℝ)
    (theta : Fin T → ℝ) (d : ℝ) (k0 : κ → ℝ) (betaHP gammaHP : ℝ) :
    imlmEstimate pinv Gmn freq theta d k0 betaHP gammaHP =
      (imlmClaimState
        (mlmEstimate (zxyMatrixInverse pinv Gmn) (fun i _ => theta i)
          (fun j => waveNum (freq j)) d)
        (fun j => waveNum (freq j)) theta d freq betaHP gammaHP
        (Gmn 0 0) 20).2.2 := by
  unfold imlmEstimate
  simp only [imlm_iterate_eq_claimState]

/-- C10: the result of `imlmEstimate` does not depend on its wavenumber
parameter, because `k = waveNum(freq)` overwrites it on entry. -/
theorem imlm_ignores_wavenumber_argument {T : ℕ} {κ : Type*}
    (pinv : M33 → M33) (Gmn : Fin 3 → Fin 3 → κ → ℂ) (freq : κ → ℝ)
    (theta : Fin T → ℝ) (d : ℝ) (k1 k2 : κ → ℝ) (betaHP gammaHP : ℝ) :
    imlmEstimate pinv Gmn freq theta d k1 betaHP gammaHP =
      imlmEstimate pinv Gmn freq theta d k2 betaHP gammaHP := rfl

/-- C2: the transfer-gain branch shared by `mlmEstimate` and
`spectrumToCrossSpectrum` (through `hzF`/`hxyF`) is a single global branch:
if some element of `k` is nonzero and `1*depth > 15` then `hz = 1` and
`hxy = i` for every bin `j`; otherwise every bin gets the finite-depth
hyperbolic gains `hxy = i*cosh(k*(d+0.5))/sinh(k*d)` and
`hz = sinh(k*(d+0.5))/sinh(k*d)`. -/
theorem transfer_gains_single_global_branch {κ : Type*} (k : κ → ℝ) (d : ℝ)
    (j : κ) :
    hzF k d j = (if (∃ i, k i ≠ 0) ∧ 1 * d > 15 then 1
      else Real.sinh (k j * (d + 0.5)) / Real.sinh (k j * d)) ∧
    hxyF k d j = (if (∃ i, k i ≠ 0) ∧ 1 * d > 15 then Complex.I
      else Complex.I * ((Real.cosh (k j * (d + 0.5)) : ℝ) : ℂ) /
        ((Real.sinh (k j * d) : ℝ) : ℂ)) := by
  have hcond : deepCond k d ↔ (∃ i, k i ≠ 0) ∧ 1 * d > 15 := by
    unfold deepCond anyNZ
    by_cases ha : ∃ i, k i ≠ 0
    · rw [if_pos ha]
      exact ⟨fun h => ⟨ha, h⟩, fun h => h.2⟩
    · rw [if_neg ha]
      constructor
      · intro h
        rw [zero_mul] at h
        exact absurd h (by norm_num)
      · intro h
        exact absurd h.1 ha
  constructor
  · by_cases h : deepCond k d
    · simp only [hzF, if_pos h, if_pos (hcond.mp h), pow_zero]
    · simp only [hzF, if_neg h, if_neg (fun hc => h (hcond.mpr hc))]
  · by_cases h : deepCond k d
    · simp only [hxyF, if_pos h, if_pos (hcond.mp h), pow_zero,
        Complex.ofReal_one, mul_one]
    · simp only [hxyF, if_neg h, if_neg (fun hc => h (hcond.mpr hc))]

/-- C6: whatever the method, a successful run of `displacementToWelch`
returns the moments table computed from the original Welch cross-spectrum
(`dtwRows`, which never touches `spectrumToCrossSpectrum`): the re-synthesis
of `newst` from `Czz * estimate` changes no field of the returned table. -/
theorem dtw_table_unaffected_by_resynthesis (pinv : M33 → M33)
    (lsq : LsqSolver) (bins : List (ℝ × M33)) (method : String) :
    (∃ e, displacementToWelch pinv lsq bins method = .error e) ∨
    (∃ est, displacementToWelch pinv lsq bins method =
      .ok (dtwRows bins, est)) := by
  unfold displacementToWelch
  rcases h : dtwDispatch pinv lsq bins method with e | _ | est
  · exact Or.inl ⟨e, rfl⟩
  · exact Or.inl ⟨.unboundLocalEstimate, rfl⟩
  · exact Or.inr ⟨est, rfl⟩

/-- C8 (amended): for every method name outside mlm/imlm/mem, the `if/elif`
dispatch of `displacementToWelch` has no `else` branch, so `estimate` is
never assigned, no estimator and no default runs, and the pipeline raises
`UnboundLocalError` later, when the re-synthesis line first reads
`estimate`. -/
theorem dtw_unknown_method_raises_unbound_local (pinv : M33 → M33)
    (lsq : LsqSolver) (bins : List (ℝ × M33)) (method : String)
    (h1 : method ≠ "mlm") (h2 : method ≠ "imlm") (h3 : method ≠ "mem") :
    displacementToWelch pinv lsq bins method =
      .error .unboundLocalEstimate := by
  have h : dtwDispatch pinv lsq bins method = .ok none := by
    unfold dtwDispatch
    rw [if_neg h1, if_neg h2, if_neg h3]
  unfold displacementToWelch
  rw [h]

/-- A trivial always-succeeding stand-in for the least-squares oracle. -/
noncomputable def lsqZero : LsqSolver := fun _ _ _ _ => .ok fun _ => 1

/-- C8 (counterexample): at the unknown method name `"welch"`, the pipeline
does not fail at the dispatch point with a configuration error; it falls
through the dispatch and raises `UnboundLocalError` at the re-synthesis
line's read of the unassigned `estimate`. -/
theorem dtw_unknown_method_not_config_error :
    displacementToWelch id lsqZero [] "welch" =
      .error .unboundLocalEstimate ∧
    DtwErr.unboundLocalEstimate ≠ DtwErr.configErrorUnknownMethod := by
  constructor
  · have h : dtwDispatch id lsqZero [] "welch" = .ok none := by
      unfold dtwDispatch
      rw [if_neg (by decide : ¬("welch" = "mlm")),
        if_neg (by decide : ¬("welch" = "imlm")),
        if_neg (by decide : ¬("welch" = "mem"))]
    unfold displacementToWelch
    rw [h]
  · decide

/-- C8 (witness): the amended theorem applied at the concrete unknown
method name `"anything"`. -/
theorem dtw_unknown_method_raises_unbound_local_witness :
    displacementToWelch id lsqZero [] "anything" =
      .error .unboundLocalEstimate :=
  dtw_unknown_method_raises_unbound_local id lsqZero [] "anything"
    (by decide) (by decide) (by decide)

/-- A concrete moments-table row with `b1 = 1/2` and `b2 = 1/3`. -/
noncomputable def c1Row : MomentsRow :=
  { freq := 0.1, Czz := 1, Cxx := 1, Cyy := 1, Cxy := 0, Qzx := 0, Qzy := 0,
    a0 := 1, a1 := 0, b1 := 1/2, a2 := 0, b2 := 1/3, k := 0 }

/-- C1 (failing input evaluated): the target vector `y` handed to the
least-squares solver by `bettermem` carries the table's `b2` in slot 2
(`y[2] = ff.b2[i]`), not `b1` as the claim (and the residual's own
coefficient order `[1, a1, b1, a2, b2]`) requires, so on any bin with
`b1 ≠ b2` the fitted target differs from the claimed one. -/
theorem mem_target_slot_two_is_b2_not_b1 :
    memTarget c1Row 2 = c1Row.b2 ∧ c1Row.b1 = 1 / 2 ∧ c1Row.b2 = 1 / 3 ∧
      memTarget c1Row 2 ≠ c1Row.b1 := by
  refine ⟨rfl, rfl, rfl, ?_⟩
  show (1 : ℝ) / 3 ≠ 1 / 2
  norm_num

theorem mlmsum_nonneg_of_psd {ι κ : Type*} (Ds : Fin 3 → Fin 3 → κ → ℂ)
    (thetaG : ι → κ → ℝ) (k : κ → ℝ) (d : ℝ)
    (hpsd : ∀ j, HPSD3 fun m n => Ds m n j) (i : ι) (j : κ) :
    0 ≤ mlmsum Ds thetaG k d i j := by
  have h := (hpsd j).2 fun m => conj (alphaV (thetaG i j) m * hmatrix k d m j)
  rw [Complex.re_sum] at h
  simp only [Complex.re_sum] at h
  unfold mlmsum
  have key : ∀ m n : Fin 3,
      (hmatrix k d m j * alphaV (thetaG i j) m) * Ds m n j *
        conj (alphaV (thetaG i j) n * hmatrix k d n j) =
      conj (conj (alphaV (thetaG i j) m * hmatrix k d m j)) * Ds m n j *
        conj (alphaV (thetaG i j) n * hmatrix k d n j) := by
    intro m n
    rw [Complex.conj_conj]
    ring
  simp only [key]
  exact h

/-- C5: when every per-bin 3x3 matrix of the input `Ds` is Hermitian
positive-semidefinite, the per-cell bilinear form accumulated by
`mlmEstimate` is non-negative, and every entry of the returned
direction-by-frequency grid (its elementwise reciprocal) is a non-negative
real number. -/
theorem mlm_grid_nonneg_of_psd {ι κ : Type*} (Ds : Fin 3 → Fin 3 → κ → ℂ)
    (thetaG : ι → κ → ℝ) (k : κ → ℝ) (d : ℝ)
    (hpsd : ∀ j, HPSD3 fun m n => Ds m n j) :
    (∀ i j, 0 ≤ mlmsum Ds thetaG k d i j) ∧
      ∀ i j, 0 ≤ mlmEstimate Ds thetaG k d i j := by
  refine ⟨fun i j => mlmsum_nonneg_of_psd Ds thetaG k d hpsd i j,
    fun i j => ?_⟩
  unfold mlmEstimate
  exact one_div_nonneg.mpr (mlmsum_nonneg_of_psd Ds thetaG k d hpsd i j)

/-- The identity matrix at every frequency bin, a concrete Hermitian
positive-semidefinite cross-spectrum family. -/
def idBins : Fin 3 → Fin 3 → ℕ → ℂ := fun m n _ => if m = n then 1 else 0

theorem idBins_psd : ∀ j : ℕ, HPSD3 fun m n => idBins m n j := by
  intro j
  constructor
  · intro m n
    by_cases h : m = n
    · simp [idBins, h]
    · simp [idBins, h, Ne.symm h]
  · intro v
    have hsum : (∑ m, ∑ n, conj (v m) * idBins m n j * v n) =
        ∑ m, conj (v m) * v m := by
      refine Finset.sum_congr rfl fun m _ => ?_
      simp [idBins, mul_ite, ite_mul, Finset.sum_ite_eq]
    rw [hsum, Complex.re_sum]
    refine Finset.sum_nonneg fun m _ => ?_
    have : (conj (v m) * v m).re = Complex.normSq (v m) := by
      simp [Complex.mul_re, Complex.conj_re, Complex.conj_im,
        Complex.normSq_apply]
    rw [this]
    exact Complex.normSq_nonneg _

/-- C5 (witness): the theorem applied at the identity cross-spectrum family,
a constant direction grid, unit wavenumbers and depth 60. -/
theorem mlm_grid_nonneg_of_psd_witness :
    (∀ i j : ℕ, 0 ≤ mlmsum idBins (fun _ _ => 0) (fun _ => 1) 60 i j) ∧
      ∀ i j : ℕ, 0 ≤ mlmEstimate idBins (fun _ _ => 0) (fun _ => 1) 60 i j :=
  mlm_grid_nonneg_of_psd idBins (fun _ _ => 0) (fun _ => 1) 60 idBins_psd

theorem hpd3_diag_pos (G : Fin 3 → Fin 3 → ℂ) (h : HPD3 G) :
    0 < (G 0 0).re ∧ 0 < (G 1 1).re ∧ 0 < (G 2 2).re := by
  refine ⟨?_, ?_, ?_⟩
  · have hp := h.2 ![1, 0, 0] (by intro hc; exact one_ne_zero (congrFun hc 0))
    simpa [Fin.sum_univ_three] using hp
  · have hp := h.2 ![0, 1, 0] (by intro hc; exact one_ne_zero (congrFun hc 1))
    simpa [Fin.sum_univ_three] using hp
  · have hp := h.2 ![0, 0, 1] (by intro hc; exact one_ne_zero (congrFun hc 2))
    simpa [Fin.sum_univ_three] using hp

theorem hpd3_im_diag_zero (G : Fin 3 → Fin 3 → ℂ) (h : HPD3 G) :
    (G 0 0).im = 0 ∧ (G 1 1).im = 0 ∧ (G 2 2).im = 0 := by
  refine ⟨?_, ?_, ?_⟩ <;>
    [have h0 := congrArg Complex.im (h.1 0 0);
      have h0 := congrArg Complex.im (h.1 1 1);
      have h0 := congrArg Complex.im (h.1 2 2)] <;>
    simp only [Complex.conj_im] at h0 <;> linarith

theorem hpd3_minor01 (G : Fin 3 → Fin 3 → ℂ) (h : HPD3 G) :
    Complex.normSq (G 0 1) < (G 0 0).re * (G 1 1).re := by
  obtain ⟨-, hb, -⟩ := hpd3_diag_pos G h
  obtain ⟨him00, him11, -⟩ := hpd3_im_diag_zero G h
  have hv : (![((G 1 1).re : ℂ), -conj (G 0 1), 0] : Fin 3 → ℂ) ≠ 0 := by
    intro hc
    have h0 := congrFun hc 0
    simp only [Matrix.cons_val_zero, Pi.zero_apply, Complex.ofReal_eq_zero] at h0
    exact hb.ne' h0
  have hp := h.2 ![((G 1 1).re : ℂ), -conj (G 0 1), 0] hv
  simp only [Fin.sum_univ_three, Matrix.cons_val_zero, Matrix.cons_val_one,
    Matrix.head_cons] at hp
  rw [show G 1 0 = conj (G 0 1) from h.1 0 1] at hp
  simp only [show ((![((G 1 1).re : ℂ), -conj (G 0 1), 0] : Fin 3 → ℂ)) 2 = 0
      by simp,
    mul_zero, zero_mul, add_zero, map_zero, map_neg, Complex.conj_conj] at hp
  simp only [Complex.add_re, Complex.mul_re, Complex.mul_im, Complex.conj_re,
    Complex.conj_im, Complex.neg_re, Complex.neg_im, Complex.ofReal_re,
    Complex.ofReal_im, him00, him11] at hp
  rw [Complex.normSq_apply]
  nlinarith [hp, hb]

theorem hpd3_minor02 (G : Fin 3 → Fin 3 → ℂ) (h : HPD3 G) :
    Complex.normSq (G 0 2) < (G 0 0).re * (G 2 2).re := by
  obtain ⟨-, -, hb⟩ := hpd3_diag_pos G h
  obtain ⟨him00, -, him22⟩ := hpd3_im_diag_zero G h
  have hv : (![((G 2 2).re : ℂ), 0, -conj (G 0 2)] : Fin 3 → ℂ) ≠ 0 := by
    intro hc
    have h0 := congrFun hc 0
    simp only [Matrix.cons_val_zero, Pi.zero_apply, Complex.ofReal_eq_zero] at h0
    exact hb.ne' h0
  have hp := h.2 ![((G 2 2).re : ℂ), 0, -conj (G 0 2)] hv
  simp only [Fin.sum_univ_three, Matrix.cons_val_zero, Matrix.cons_val_one,
    Matrix.head_cons] at hp
  rw [show G 2 0 = conj (G 0 2) from h.1 0 2] at hp
  simp only [show ((![((G 2 2).re : ℂ), 0, -conj (G 0 2)] : Fin 3 → ℂ)) 2 =
      -conj (G 0 2) by simp,
    mul_zero, zero_mul, add_zero, zero_add, map_zero, map_neg,
    Complex.conj_conj] at hp
  simp only [Complex.add_re, Complex.mul_re, Complex.mul_im, Complex.conj_re,
    Complex.conj_im, Complex.neg_re, Complex.neg_im, Complex.ofReal_re,
    Complex.ofReal_im, him00, him22] at hp
  rw [Complex.normSq_apply]
  nlinarith [hp, hb]

theorem hpd3_minor12 (G : Fin 3 → Fin 3 → ℂ) (h : HPD3 G) :
    Complex.normSq (G 1 2) < (G 1 1).re * (G 2 2).re := by
  obtain ⟨-, -, hb⟩ := hpd3_diag_pos G h
  obtain ⟨-, him11, him22⟩ := hpd3_im_diag_zero G h
  have hv : (![0, ((G 2 2).re : ℂ), -conj (G 1 2)] : Fin 3 → ℂ) ≠ 0 := by
    intro hc
    have h0 := congrFun hc 1
    simp only [Matrix.cons_val_one, Matrix.head_cons, Pi.zero_apply,
      Complex.ofReal_eq_zero] at h0
    exact hb.ne' h0
  have hp := h.2 ![0, ((G 2 2).re : ℂ), -conj (G 1 2)] hv
  simp only [Fin.sum_univ_three, Matrix.cons_val_zero, Matrix.cons_val_one,
    Matrix.head_cons] at hp
  rw [show G 2 1 = conj (G 1 2) from h.1 1 2] at hp
  simp only [show ((![0, ((G 2 2).re : ℂ), -conj (G 1 2)] : Fin 3 → ℂ)) 2 =
      -conj (G 1 2) by simp,
    mul_zero, zero_mul, add_zero, zero_add, map_zero, map_neg,
    Complex.conj_conj] at hp
  simp only [Complex.add_re, Complex.mul_re, Complex.mul_im, Complex.conj_re,
    Complex.conj_im, Complex.neg_re, Complex.neg_im, Complex.ofReal_re,
    Complex.ofReal_im, him11, him22] at hp
  rw [Complex.normSq_apply]
  nlinarith [hp, hb]

/-- C4: for a Hermitian positive-definite cross-spectrum bin, wired as in
`displacementToWelch` (`Qzx = Im G[0][1]`, `Qzy = Im G[0][2]`,
`Cxy = Re G[1][2]`, co-spectra from the diagonal), `firstOrderFourier`
returns `a1, b1` with `|a1| ≤ 1` and `|b1| ≤ 1`, and `secondOrderFourier`
returns `a2, b2` with `|a2| ≤ 1` and `|b2| ≤ 1`. -/
theorem fourier_moments_bounded_of_hpd (G : Fin 3 → Fin 3 → ℂ)
    (h : HPD3 G) :
    |(firstOrderFourier ((G 0 1).im) ((G 1 1).re) ((G 2 2).re) ((G 0 0).re)
        ((G 0 2).im)).1| ≤ 1 ∧
    |(firstOrderFourier ((G 0 1).im) ((G 1 1).re) ((G 2 2).re) ((G 0 0).re)
        ((G 0 2).im)).2| ≤ 1 ∧
    |(secondOrderFourier ((G 1 1).re) ((G 2 2).re) ((G 0 0).re)
        ((G 1 2).re)).1| ≤ 1 ∧
    |(secondOrderFourier ((G 1 1).re) ((G 2 2).re) ((G 0 0).re)
        ((G 1 2).re)).2| ≤ 1 := by
  obtain ⟨ha, hx, hy⟩ := hpd3_diag_pos G h
  have hm01 := hpd3_minor01 G h
  have hm02 := hpd3_minor02 G h
  have hm12 := hpd3_minor12 G h
  have hq1 : ((G 0 1).im) ^ 2 ≤ ((G 1 1).re + (G 2 2).re) * (G 0 0).re := by
    have hle : ((G 0 1).im) ^ 2 ≤ Complex.normSq (G 0 1) := by
      rw [Complex.normSq_apply]
      nlinarith [sq_nonneg (G 0 1).re]
    nlinarith [mul_pos ha hy]
  have hq2 : ((G 0 2).im) ^ 2 ≤ ((G 1 1).re + (G 2 2).re) * (G 0 0).re := by
    have hle : ((G 0 2).im) ^ 2 ≤ Complex.normSq (G 0 2) := by
      rw [Complex.normSq_apply]
      nlinarith [sq_nonneg (G 0 2).re]
    nlinarith [mul_pos ha hx]
  refine ⟨?_, ?_, ?_, ?_⟩
  · show |1 * (G 0 1).im /
      Real.sqrt (((G 1 1).re + (G 2 2).re) * (G 0 0).re)| ≤ 1
    have habs : |Real.sqrt (((G 1 1).re + (G 2 2).re) * (G 0 0).re)| =
        Real.sqrt (((G 1 1).re + (G 2 2).re) * (G 0 0).re) :=
      abs_of_nonneg (Real.sqrt_nonneg _)
    rw [one_mul, abs_div, habs]
    refine div_le_one_of_le₀ ?_ (Real.sqrt_nonneg _)
    calc |(G 0 1).im| = Real.sqrt (((G 0 1).im) ^ 2) :=
          (Real.sqrt_sq_eq_abs _).symm
      _ ≤ Real.sqrt (((G 1 1).re + (G 2 2).re) * (G 0 0).re) :=
          Real.sqrt_le_sqrt hq1
  · show |1 * (G 0 2).im /
      Real.sqrt (((G 1 1).re + (G 2 2).re) * (G 0 0).re)| ≤ 1
    have habs : |Real.sqrt (((G 1 1).re + (G 2 2).re) * (G 0 0).re)| =
        Real.sqrt (((G 1 1).re + (G 2 2).re) * (G 0 0).re) :=
      abs_of_nonneg (Real.sqrt_nonneg _)
    rw [one_mul, abs_div, habs]
    refine div_le_one_of_le₀ ?_ (Real.sqrt_nonneg _)
    calc |(G 0 2).im| = Real.sqrt (((G 0 2).im) ^ 2) :=
          (Real.sqrt_sq_eq_abs _).symm
      _ ≤ Real.sqrt (((G 1 1).re + (G 2 2).re) * (G 0 0).re) :=
          Real.sqrt_le_sqrt hq2
  · show |((G 1 1).re - (G 2 2).re) / ((G 1 1).re + (G 2 2).re)| ≤ 1
    have habs : |(G 1 1).re + (G 2 2).re| = (G 1 1).re + (G 2 2).re :=
      abs_of_pos (add_pos hx hy)
    rw [abs_div, habs]
    refine div_le_one_of_le₀ ?_ (le_of_lt (add_pos hx hy))
    exact abs_le.mpr ⟨by linarith, by linarith⟩
  · show |2 * (G 1 2).re / ((G 1 1).re + (G 2 2).re)| ≤ 1
    have habs : |(G 1 1).re + (G 2 2).re| = (G 1 1).re + (G 2 2).re :=
      abs_of_pos (add_pos hx hy)
    rw [abs_div, habs]
    refine div_le_one_of_le₀ ?_ (le_of_lt (add_pos hx hy))
    have hp2 : ((G 1 2).re) ^ 2 ≤ Complex.normSq (G 1 2) := by
      rw [Complex.normSq_apply]
      nlinarith [sq_nonneg (G 1 2).im]
    rw [abs_le]
    constructor <;>
      nlinarith [hm12, hp2, sq_nonneg ((G 1 1).re - (G 2 2).re), hx, hy]

/-- The identity matrix as a single cross-spectrum bin. -/
def idM33 : Fin 3 → Fin 3 → ℂ := fun m n => if m = n then 1 else 0

theorem idM33_hpd : HPD3 idM33 := by
  constructor
  · intro m n
    by_cases h : m = n
    · simp [idM33, h]
    · simp [idM33, h, Ne.symm h]
  · intro v hv
    have hsum : (∑ m, ∑ n, conj (v m) * idM33 m n * v n) =
        ∑ m, conj (v m) * v m := by
      refine Finset.sum_congr rfl fun m _ => ?_
      simp [idM33, mul_ite, ite_mul, Finset.sum_ite_eq]
    rw [hsum, Complex.re_sum]
    have hterm : ∀ m : Fin 3, (conj (v m) * v m).re = Complex.normSq (v m) := by
      intro m
      simp [Complex.mul_re, Complex.conj_re, Complex.conj_im,
        Complex.normSq_apply]
    obtain ⟨m, hm⟩ := Function.ne_iff.mp hv
    refine Finset.sum_pos'
      (fun i _ => by rw [hterm i]; exact Complex.normSq_nonneg _)
      ⟨m, Finset.mem_univ m, ?_⟩
    rw [hterm m]
    exact Complex.normSq_pos.mpr (by simpa using hm)

/-- C4 (witness): the theorem applied at the identity bin. -/
theorem fourier_moments_bounded_of_hpd_witness :
    |(firstOrderFourier ((idM33 0 1).im) ((idM33 1 1).re) ((idM33 2 2).re)
        ((idM33 0 0).re) ((idM33 0 2).im)).1| ≤ 1 ∧
    |(firstOrderFourier ((idM33 0 1).im) ((idM33 1 1).re) ((idM33 2 2).re)
        ((idM33 0 0).re) ((idM33 0 2).im)).2| ≤ 1 ∧
    |(secondOrderFourier ((idM33 1 1).re) ((idM33 2 2).re) ((idM33 0 0).re)
        ((idM33 1 2).re)).1| ≤ 1 ∧
    |(secondOrderFourier ((idM33 1 1).re) ((idM33 2 2).re) ((idM33 0 0).re)
        ((idM33 1 2).re)).2| ≤ 1 :=
  fourier_moments_bounded_of_hpd idM33 idM33_hpd

theorem memCells_error_of_mem (lsq : LsqSolver) (ff : ℕ → MomentsRow)
    (thetaG : List ℝ) (t : ℝ) (idxs : List ℕ) (i : ℕ) (hi : i ∈ idxs)
    (herr : lsq memResidual (fun _ => 1) thetaG (memTarget (ff i)) =
      .error ()) :
    memCells lsq ff thetaG t idxs = .error () := by
  induction idxs with
  | nil => cases hi
  | cons a as ih =>
    rcases List.mem_cons.mp hi with h | h
    · subst h
      unfold memCells
      rw [herr]
    · unfold memCells
      rcases hfit : lsq memResidual (fun _ => 1) thetaG (memTarget (ff a))
        with e | x
      · cases e
        rfl
      · rw [ih h]

/-- C7 (amended): a least-squares failure at any single (direction,
frequency) cell is an uncaught exception that aborts the whole `bettermem`
computation: no other cell's grid value is produced, no per-cell report
exists, and the grid is never returned. -/
theorem bettermem_aborts_on_any_cell_failure (lsq : LsqSolver)
    (ff : ℕ → MomentsRow) (cross : Fin 3 → Fin 3 → ℕ → ℂ)
    (thetaG : List ℝ) (nF : ℕ) (i : ℕ) (hth : thetaG ≠ []) (hi : i < nF)
    (herr : lsq memResidual (fun _ => 1) thetaG (memTarget (ff i)) =
      .error ()) :
    bettermem lsq ff cross thetaG nF = .error () := by
  obtain ⟨t, rest, rfl⟩ := List.exists_cons_of_ne_nil hth
  unfold bettermem
  unfold memRows
  rw [memCells_error_of_mem lsq ff (t :: rest) t (List.range nF) i
    (List.mem_range.mpr hi) herr]

/-- A family of moments rows whose bin 0 has `a0 = 1` and all later bins
have `a0 = 0`. -/
noncomputable def ffW : ℕ → MomentsRow :=
  fun i => { (default : MomentsRow) with a0 := if i = 0 then 1 else 0 }

/-- A least-squares oracle that raises exactly when the target's first
component is `1` — i.e. only on bin 0 of `ffW`. -/
noncomputable def lsqBad : LsqSolver :=
  fun _ _ _ y => if y 0 = 1 then .error () else .ok fun _ => 0

theorem lsqBad_fails_on_ffW0 :
    lsqBad memResidual (fun _ => 1) [0] (memTarget (ffW 0)) = .error () := by
  unfold lsqBad
  rw [if_pos]
  show memTarget (ffW 0) 0 = 1
  simp [memTarget, ffW]

/-- C7 (counterexample): with a solver that fails only on frequency bin 0
(and succeeds on bin 1), `bettermem` over one direction and two frequency
bins aborts with the exception instead of producing the other cell's value:
no grid is returned at all. -/
theorem bettermem_cell_failure_kills_other_cells :
    bettermem lsqBad ffW idBins [0] 2 = .error () ∧
    lsqBad memResidual (fun _ => 1) [0] (memTarget (ffW 1)) =
      .ok fun _ => 0 := by
  constructor
  · unfold bettermem
    unfold memRows
    rw [memCells_error_of_mem lsqBad ffW [0] 0 (List.range 2) 0
      (by decide) lsqBad_fails_on_ffW0]
  · unfold lsqBad
    rw [if_neg]
    show ¬memTarget (ffW 1) 0 = 1
    simp [memTarget, ffW]

/-- C7 (witness): the amended theorem applied at the concrete failing
solver, one direction and two frequency bins. -/
theorem bettermem_aborts_on_any_cell_failure_witness :
    bettermem lsqBad ffW idBins [0] 2 = .error () :=
  bettermem_aborts_on_any_cell_failure lsqBad ffW idBins [0] 2 0
    (List.cons_ne_nil 0 []) (by decide) lsqBad_fails_on_ffW0

/-- The deep-water asymptote gains produced by the `k.any()*d > 15` branch:
`hz = 1`, `hxy = i`, third component `-i`, for every bin. -/
noncomputable def deepHmatrix {κ : Type*} : Fin 3 → κ → ℂ :=
  fun m _ => ![1, Complex.I, -Complex.I] m

/-- `mlmEstimate` specialized to the deep-water gains. -/
noncomputable def mlmEstimateDeep {ι κ : Type*} (Ds : Fin 3 → Fin 3 → κ → ℂ)
    (thetaG : ι → κ → ℝ) : ι → κ → ℝ :=
  fun i j => 1 / ∑ m, ∑ n,
    ((deepHmatrix m j * alphaV (thetaG i j) m) * Ds m n j *
      conj (alphaV (thetaG i j) n * deepHmatrix n j)).re

/-- `spectrumToCrossSpectrum` specialized to the deep-water gains. -/
noncomputable def spectrumToCrossSpectrumDeep {T : ℕ} {κ : Type*}
    (S : Fin T → κ → ℂ) (theta : Fin T → ℝ) : Fin 3 → Fin 3 → κ → ℂ :=
  fun m n j =>
    trapzC (List.ofFn theta)
      (List.ofFn fun i => deepHmatrix m j * conj (deepHmatrix n j) * S i j)

theorem hmatrix_deep_of_deepCond {κ : Type*} (k : κ → ℝ) (d : ℝ)
    (h : deepCond k d) :
    ∀ (m : Fin 3) (j : κ), hmatrix k d m j = deepHmatrix m j := by
  intro m j
  fin_cases m <;>
    simp [hmatrix, deepHmatrix, hzF, hxyF, if_pos h, pow_zero]

/-- C9: the pipeline fixes depth `d = 60`; whenever the input has at least
one positive frequency bin, the pipeline wavenumber `dtwK` has a nonzero
entry, so the shared `k.any()*d > 15` guard holds (`deepCond`), every
transfer gain the pipeline's calls use equals the deep-water asymptote
(`hz = 1`, `hxy = i`), and `mlmEstimate` / `spectrumToCrossSpectrum` at the
pipeline's `(k, d)` coincide with their deep-water specializations — the
finite-depth hyperbolic formulas are never the ones in effect. -/
theorem dtw_pipeline_always_deep_branch (bins : List (ℝ × M33))
    (h : ∃ b ∈ bins, 0 < b.1) :
    deepCond (dtwK bins) (60 : ℝ) ∧
    (∀ (m : Fin 3) (j : ℕ), hmatrix (dtwK bins) 60 m j = deepHmatrix m j) ∧
    (∀ (ι : Type) (Ds : Fin 3 → Fin 3 → ℕ → ℂ) (thetaG : ι → ℕ → ℝ),
      mlmEstimate Ds thetaG (dtwK bins) 60 = mlmEstimateDeep Ds thetaG) ∧
    (∀ (T : ℕ) (S : Fin T → ℕ → ℂ) (theta : Fin T → ℝ),
      spectrumToCrossSpectrum S (dtwK bins) theta 60 (dtwFreq bins) =
        spectrumToCrossSpectrumDeep S theta) := by
  obtain ⟨b, hb, hpos⟩ := h
  have hmem : b ∈ dtwRf bins :=
    List.mem_filter.mpr ⟨hb, decide_eq_true hpos⟩
  have hne : dtwRf bins ≠ [] := List.ne_nil_of_mem hmem
  obtain ⟨c, cs, hcons⟩ := List.exists_cons_of_ne_nil hne
  have hcpos : 0 < c.1 := by
    have hc : c ∈ dtwRf bins := by
      rw [hcons]
      exact List.mem_cons_self c cs
    exact of_decide_eq_true (List.mem_filter.mp hc).2
  have hfreq0 : dtwFreq bins 0 = c.1 := by
    unfold dtwFreq
    rw [hcons]
    rfl
  have hk0 : 0 < dtwK bins 0 := by
    unfold dtwK
    rw [hfreq0]
    unfold waveNum
    positivity
  have hdeep : deepCond (dtwK bins) (60 : ℝ) := by
    unfold deepCond
    rw [if_pos ⟨0, hk0.ne'⟩]
    norm_num
  have hm := hmatrix_deep_of_deepCond (dtwK bins) 60 hdeep
  refine ⟨hdeep, hm, ?_, ?_⟩
  · intro ι Ds thetaG
    funext i j
    unfold mlmEstimate mlmsum mlmEstimateDeep
    simp only [hm]
  · intro T S theta
    funext m n j
    unfold spectrumToCrossSpectrum spectrumToCrossSpectrumDeep
    simp only [hm]

/-- A one-bin input with frequency 1 and zero cross-spectrum matrix. -/
noncomputable def binsW : List (ℝ × M33) := [(1, fun _ _ => 0)]

/-- C9 (witness): the theorem applied at the concrete one-positive-bin
input `binsW`. -/
theorem dtw_pipeline_always_deep_branch_witness :
    deepCond (dtwK binsW) (60 : ℝ) ∧
    (∀ (m : Fin 3) (j : ℕ), hmatrix (dtwK binsW) 60 m j = deepHmatrix m j) ∧
    (∀ (ι : Type) (Ds : Fin 3 → Fin 3 → ℕ → ℂ) (thetaG : ι → ℕ → ℝ),
      mlmEstimate Ds thetaG (dtwK binsW) 60 = mlmEstimateDeep Ds thetaG) ∧
    (∀ (T : ℕ) (S : Fin T → ℕ → ℂ) (theta : Fin T → ℝ),
      spectrumToCrossSpectrum S (dtwK binsW) theta 60 (dtwFreq binsW) =
        spectrumToCrossSpectrumDeep S theta) :=
  dtw_pipeline_always_deep_branch binsW
    ⟨(1, fun _ _ => 0), by simp [binsW], by norm_num⟩
